import Mathlib

/-!
Verification model of the orderedpool repository (src/map_ordered.go).

The Go program is a bounded-concurrency order-preserving parallel map.
`MapOrdered` normalizes its `Options`, starts a Submitter goroutine that
assigns increasing indices to input items, a pool of workers that apply the
transform with panic capture, and a Collector loop that reorders indexed
results through a map keyed by index and emits them on the output channel
in index order, with an early-stop success quota and cancellation checks.

Shallow embedding used here:
they worker and submitter stages are pure functions over lists; the
Collector loop (map_ordered.go lines 83-110) is a function over the list of
indexed results in their arrival order on the result channel, parameterized
by a cancellation oracle `cancel : Nat -> Bool` that decides, at each
select over the context and the output channel, whether the cancellation
branch is taken.  Quantifying over arrival lists and oracles covers every
interleaving of the workers and every cancellation timing.
-/

/-- Result struct of map_ordered.go lines 9-12: a value plus an optional
error (`Err = none` is the Go `nil` error, i.e. success). -/
structure CResult (R E : Type) where
  Value : R
  Err : Option E
deriving DecidableEq, Repr

/-- Options struct of map_ordered.go lines 14-20.  Go `int` and
`time.Duration` fields are modeled as `Int`. -/
structure Options where
  Workers : Int
  MaxInFlight : Int
  EarlyStopN : Int
  PanicAsError : Bool
  TaskTimeout : Int
deriving DecidableEq, Repr

/-- Normalization performed at the top of MapOrdered (lines 38-43):
Workers <= 0 becomes 1, then MaxInFlight < Workers becomes Workers.
MapOrdered has no other reaction to invalid configuration: it always
proceeds and returns the output channel. -/
def normalizeOptions (opt : Options) : Options :=
  let opt1 := if opt.Workers ≤ 0 then
    Options.mk 1 opt.MaxInFlight opt.EarlyStopN opt.PanicAsError opt.TaskTimeout
  else opt
  if opt1.MaxInFlight < opt1.Workers then
    Options.mk opt1.Workers opt1.Workers opt1.EarlyStopN opt1.PanicAsError opt1.TaskTimeout
  else opt1

/-- PanicError of map_ordered.go lines 171-173, wrapping the recovered
payload of a transform panic. -/
structure PanicError (P : Type) where
  Panic : P
deriving DecidableEq, Repr

/-- Error method of PanicError (map_ordered.go lines 175-177): it returns a
constant message and does not render the payload. -/
def PanicError.Error {P : Type} (_e : PanicError P) : String :=
  "panic occurred"

/-- Errors that can appear in a Result slot: an ordinary error returned by
the transform, or a PanicError produced by the recover handler. -/
inductive GoError (E P : Type)
  | user : E → GoError E P
  | panicked : PanicError P → GoError E P
deriving DecidableEq, Repr

/-- Outcome of one invocation of the transform `fn`: a normal return of a
value and an optional error, or a panic with payload of type P. -/
inductive FnOutcome (R E P : Type)
  | ret : R → Option E → FnOutcome R E P
  | panics : P → FnOutcome R E P

/-- Worker body for one task (map_ordered.go lines 142-156): run the
transform inside a recover wrapper.  A normal return is forwarded as a
Result.  A panic is wrapped into a PanicError and used as the error result
when PanicAsError is set (the value keeps the Go zero value, modeled by
`default`); otherwise the panic is re-raised, modeled by `Except.error`
carrying the payload out of the worker. -/
def runTask {T R E P : Type} [Inhabited R] (panicAsError : Bool)
    (f : T → FnOutcome R E P) (x : T) : Except P (CResult R (GoError E P)) :=
  match f x with
  | FnOutcome.ret r e => Except.ok (CResult.mk r (e.map GoError.user))
  | FnOutcome.panics p =>
    if panicAsError then
      Except.ok (CResult.mk default (some (GoError.panicked (PanicError.mk p))))
    else
      Except.error p

/-- Worker body in the PanicAsError mode, where it never re-raises. -/
def runTaskTotal {T R E P : Type} [Inhabited R]
    (f : T → FnOutcome R E P) (x : T) : CResult R (GoError E P) :=
  match f x with
  | FnOutcome.ret r e => CResult.mk r (e.map GoError.user)
  | FnOutcome.panics p =>
    CResult.mk default (some (GoError.panicked (PanicError.mk p)))

/-- Submitter (map_ordered.go lines 68-80): pair each input item with the
next sequence index, starting from n. -/
def submitFrom {α : Type} (n : Nat) : List α → List (Nat × α)
  | [] => []
  | x :: rest => (n, x) :: submitFrom (n + 1) rest

/-- Submitter starting at index 0. -/
def submitAll {α : Type} (inputs : List α) : List (Nat × α) :=
  submitFrom 0 inputs

/-- A single worker consuming the whole task queue in order (the Workers = 1
instantiation of the pool, map_ordered.go lines 126-168): each task is run
and its indexed result is forwarded in order; an unconverted panic aborts
the run. -/
def runWorker1 {T R E P : Type} [Inhabited R] (panicAsError : Bool)
    (f : T → FnOutcome R E P) :
    List (Nat × T) → Except P (List (Nat × CResult R (GoError E P)))
  | [] => Except.ok []
  | (i, x) :: rest =>
    match runTask panicAsError f x with
    | Except.error p => Except.error p
    | Except.ok r =>
      match runWorker1 panicAsError f rest with
      | Except.error p => Except.error p
      | Except.ok l => Except.ok ((i, r) :: l)

/-- Lookup in the Go map buffer, modeled as an association list. -/
def mlookup {α : Type} (k : Nat) : List (Nat × α) → Option α
  | [] => none
  | (k', v) :: rest => if k' = k then some v else mlookup k rest

/-- Deletion from the buffer (Go delete(buffer, nextIndex), line 93). -/
def mdelete {α : Type} (k : Nat) : List (Nat × α) → List (Nat × α)
  | [] => []
  | (k', v) :: rest =>
    if k' = k then mdelete k rest else (k', v) :: mdelete k rest

/-- Insertion into the buffer (Go buffer[res.index] = res.res, line 88):
overwrites any previous binding of the key. -/
def mapInsert {α : Type} (k : Nat) (v : α) (m : List (Nat × α)) :
    List (Nat × α) :=
  (k, v) :: mdelete k m

/-- How the Collector loop of MapOrdered ends: the result channel closed and
was drained (normal), the success quota was reached (earlyStop, lines
100-102), or the context fired at an emission select (cancelled, lines
95-96). -/
inductive EndKind
  | normal
  | earlyStop
  | cancelled
deriving DecidableEq, Repr

/-- State of the Collector loop (map_ordered.go lines 83-85): the reorder
buffer, the nextIndex cursor, the success counter, a clock counting the
selects performed so far (consulted by the cancellation oracle), and the
list of already emitted indexed results, in emission order.  The output
channel receives exactly `emitted.map Prod.snd`; the index component
records the value of the cursor at the emission. -/
structure CollSt (R E : Type) where
  buffer : List (Nat × CResult R E)
  nextIndex : Nat
  successCount : Nat
  clock : Nat
  emitted : List (Nat × CResult R E)
deriving DecidableEq, Repr

/-- Success counter update after emitting an item (lines 98-99): it is
incremented only when the emitted result carries no error. -/
def stepSucc {R E : Type} (item : CResult R E) (n : Nat) : Nat :=
  if item.Err.isNone then n + 1 else n

/-- Early-stop test of lines 98-102: the emitted item was a success, the
quota is enabled, and the updated success counter has reached it. -/
def stopCond (opt : Options) {R E : Type} (item : CResult R E)
    (succ2 : Nat) : Bool :=
  item.Err.isNone && decide (0 < opt.EarlyStopN) &&
    decide (opt.EarlyStopN ≤ (succ2 : Int))

/-- Inner publication loop of the Collector (map_ordered.go lines 91-109):
while the cursor index is present in the buffer, remove it, then select
between the context (return, discarding the removed item) and the output
channel (emit the item, update the success counter, possibly early-stop,
then advance the cursor). -/
def publishLoop {R E : Type} (opt : Options) (cancel : Nat → Bool)
    (s : CollSt R E) : CollSt R E × Option EndKind :=
  match h : mlookup s.nextIndex s.buffer with
  | none => (s, none)
  | some item =>
    if cancel s.clock then
      (CollSt.mk (mdelete s.nextIndex s.buffer) s.nextIndex s.successCount
        (s.clock + 1) s.emitted, some EndKind.cancelled)
    else
      if stopCond opt item (stepSucc item s.successCount) then
        (CollSt.mk (mdelete s.nextIndex s.buffer) s.nextIndex
          (stepSucc item s.successCount) (s.clock + 1)
          (s.emitted ++ [(s.nextIndex, item)]), some EndKind.earlyStop)
      else
        publishLoop opt cancel
          (CollSt.mk (mdelete s.nextIndex s.buffer) (s.nextIndex + 1)
            (stepSucc item s.successCount) (s.clock + 1)
            (s.emitted ++ [(s.nextIndex, item)]))
termination_by s.buffer.length
decreasing_by
  have hle : ∀ (k : Nat) (m : List (Nat × CResult R E)),
      (mdelete k m).length ≤ m.length := by
    intro k m
    induction m with
    | nil => simp [mdelete]
    | cons a rest ih =>
      obtain ⟨k1, v1⟩ := a
      by_cases hk : k1 = k
      · simp only [mdelete, if_pos hk, List.length_cons]
        omega
      · simp only [mdelete, if_neg hk, List.length_cons]
        omega
  have hlt : ∀ (k : Nat) (m : List (Nat × CResult R E)) (v : CResult R E),
      mlookup k m = some v → (mdelete k m).length < m.length := by
    intro k m
    induction m with
    | nil => intro v hv; simp [mlookup] at hv
    | cons a rest ih =>
      obtain ⟨k1, v1⟩ := a
      intro v hv
      by_cases hk : k1 = k
      · simp only [mdelete, if_pos hk, List.length_cons]
        exact Nat.lt_succ_of_le (hle k rest)
      · simp only [mlookup, if_neg hk] at hv
        simp only [mdelete, if_neg hk, List.length_cons]
        exact Nat.succ_lt_succ (ih v hv)
  exact hlt _ _ _ h

/-- Outer Collector loop (map_ordered.go lines 87-110): for each indexed
result received from the result channel, store it in the buffer and run the
publication loop; stop when it reports early stop or cancellation, or when
the arrival list (the result channel) is exhausted. -/
def collectLoop {R E : Type} (opt : Options) (cancel : Nat → Bool) :
    List (Nat × CResult R E) → CollSt R E → CollSt R E × EndKind
  | [], s => (s, EndKind.normal)
  | (i, r) :: rest, s =>
    match publishLoop opt cancel
        (CollSt.mk (mapInsert i r s.buffer) s.nextIndex s.successCount
          s.clock s.emitted) with
    | (s', none) => collectLoop opt cancel rest s'
    | (s', some e) => (s', e)

/-- Initial Collector state (lines 83-85): empty buffer, cursor 0,
success counter 0. -/
def initColl {R E : Type} : CollSt R E :=
  CollSt.mk [] 0 0 0 []

/-- Run the Collector on the full arrival order of the result channel. -/
def runCollector {R E : Type} (opt : Options) (cancel : Nat → Bool)
    (arrivals : List (Nat × CResult R E)) : CollSt R E × EndKind :=
  collectLoop opt cancel arrivals initColl

/-- Cancellation oracle of a run in which the context never fires. -/
def neverCancel : Nat → Bool := fun _ => false

/-- Cancellation oracle of a run in which the context is done from the
start, so every emission select takes the ctx.Done branch. -/
def alwaysCancel : Nat → Bool := fun _ => true

/-- Events observable on the output channel. -/
inductive OutEvent (R E : Type)
  | emit : CResult R E → OutEvent R E
  | closeOutput : OutEvent R E

/-- Test for the closing event. -/
def OutEvent.isClose {R E : Type} : OutEvent R E → Bool
  | OutEvent.closeOutput => true
  | OutEvent.emit _ => false

/-- Trace of the output channel for a whole run: the Collector goroutine
emits its results and, whatever its exit path, the single deferred
close(output) of map_ordered.go lines 47-48 runs once when the goroutine
body returns.  The Collector body itself contains no close of the output
channel. -/
def coordinatorTrace {R E : Type} (opt : Options) (cancel : Nat → Bool)
    (arrivals : List (Nat × CResult R E)) : List (OutEvent R E) :=
  ((runCollector opt cancel arrivals).1.emitted.map
    (fun q => OutEvent.emit q.2)) ++ [OutEvent.closeOutput]

/-- Actions a component can perform on the shared pipeline state when its
loop exits. -/
inductive CoordStep
  | closeOutput
  | cancelShared
deriving DecidableEq, Repr

/-- Modelled from the source: the steps MapOrdered performs when the
Collector loop exits with the given kind.  On every exit path (the returns
at lines 95-96 and 100-102 and the loop end at line 110) the goroutine body
only returns, which triggers the deferred close(output) of line 48.
MapOrdered never derives a cancelable context and never calls a cancel
function for the shared ctx, so no exit path signals shared cancellation. -/
def collectorExitSteps (_e : EndKind) : List CoordStep :=
  [CoordStep.closeOutput]

/-- Modelled from the source: whether the blocked send of a worker to the
result channel (the select of map_ordered.go lines 162-166) can complete:
it requires the shared context to be done, or the Collector to still be
receiving from the result channel. -/
def workerSendUnblocked (sharedCancelled collectorReceiving : Bool) : Bool :=
  sharedCancelled || collectorReceiving

/-- Single-worker pipeline (the Workers = 1 instantiation of MapOrdered in
a run without cancellation): normalize the options, submit all inputs in
order, let the single worker produce the indexed results in task order, and
run the Collector on them; the caller sees the emitted values and the end
kind.  An unconverted panic in the transform aborts the pipeline
(Except.error). -/
def mapOrderedSeq {T R E P : Type} [Inhabited R] (opt : Options)
    (f : T → FnOutcome R E P) (inputs : List T) :
    Except P (List (CResult R (GoError E P)) × EndKind) :=
  let opt1 := normalizeOptions opt
  match runWorker1 opt1.PanicAsError f (submitAll inputs) with
  | Except.error p => Except.error p
  | Except.ok arrivals =>
    Except.ok
      (((runCollector opt1 neverCancel arrivals).1.emitted.map Prod.snd),
        (runCollector opt1 neverCancel arrivals).2)

/-- Modelled from the spec words for the sequential-equivalence claim: the
sequence obtained by applying the transform synchronously to each input
item in arrival order, stopping if an unconverted panic occurs. -/
def syncMapSpec {T R E P : Type} [Inhabited R] (panicAsError : Bool)
    (f : T → FnOutcome R E P) :
    List T → Except P (List (CResult R (GoError E P)))
  | [] => Except.ok []
  | x :: rest =>
    match runTask panicAsError f x with
    | Except.error p => Except.error p
    | Except.ok r =>
      match syncMapSpec panicAsError f rest with
      | Except.error p => Except.error p
      | Except.ok l => Except.ok (r :: l)

/-- Collector-loop invariant tying the state to the list p of arrivals
processed so far: emitted indices are exactly 0..nextIndex-1 in order, the
buffer holds exactly the processed results at indices not yet reached, the
emitted list holds exactly the processed results at indices already passed,
the success counter counts the error-free emitted results, and the quota
has not been reached. -/
structure CollInv {R E : Type} (p : List (Nat × CResult R E)) (opt : Options)
    (s : CollSt R E) : Prop where
  emit_fst : s.emitted.map Prod.fst = List.range s.nextIndex
  buf_iff : ∀ i r, mlookup i s.buffer = some r ↔ ((i, r) ∈ p ∧ s.nextIndex ≤ i)
  emit_iff : ∀ i r, (i, r) ∈ s.emitted ↔ ((i, r) ∈ p ∧ i < s.nextIndex)
  succ_eq : s.successCount = (s.emitted.filter (fun q => q.2.Err.isNone)).length
  succ_lt : 0 < opt.EarlyStopN → (s.successCount : Int) < opt.EarlyStopN

/-- Shape of the Collector state at an early-stop exit, relative to the
arrivals p processed so far: the emitted indices are a dense range, every
emitted pair was received, the emitted successes number exactly the quota,
and the last emitted result is a success (the quota-reaching one). -/
structure EarlyOut {R E : Type} (p : List (Nat × CResult R E)) (opt : Options)
    (s : CollSt R E) : Prop where
  quota_pos : 0 < opt.EarlyStopN
  emit_range : s.emitted.map Prod.fst = List.range s.emitted.length
  emit_sub : ∀ q ∈ s.emitted, q ∈ p
  succ_quota :
    ((s.emitted.filter (fun q => q.2.Err.isNone)).length : Int) = opt.EarlyStopN
  last_succ : ∃ l q, s.emitted = l ++ [q] ∧ q.2.Err.isNone = true

/-- Concrete options used by witnesses: early stop disabled. -/
def wOptPlain : Options := Options.mk 2 4 0 false 0

/-- Concrete options used by witnesses: one worker, early stop disabled. -/
def wOptOne : Options := Options.mk 1 1 0 true 0

/-- Concrete options with an early-stop quota of one success. -/
def wOptStop1 : Options := Options.mk 1 1 1 false 0

/-- Concrete arrival list: an error result at index 0, then a success at
index 1.  One success is available, so with EarlyStopN = 1 the claimed
count of exactly one emitted result is contradicted: both results are
emitted before the quota is reached. -/
def cexArrivals : List (Nat × CResult Nat Unit) :=
  [(0, CResult.mk 0 (some ())), (1, CResult.mk 5 none)]

/-- Concrete arrival list for the early-stop witness: the success at index
1 arrives before the error at index 0. -/
def wArrStop : List (Nat × CResult Nat Unit) :=
  [(1, CResult.mk 5 none), (0, CResult.mk 0 (some ()))]

/-- Concrete arrival list for the order and error-slot witnesses. -/
def wArrErr : List (Nat × CResult Nat Unit) :=
  [(1, CResult.mk 7 none), (0, CResult.mk 1 (some ()))]

/-- Concrete single arrival used by the cancellation-discard witness. -/
def wArrOne : List (Nat × CResult Nat Unit) :=
  [(0, CResult.mk 3 none)]

/-- Concrete transform doubling its input and never failing. -/
def wFnDouble : Nat → FnOutcome Nat Unit Unit :=
  fun n => FnOutcome.ret (n * 2) none

/-- Concrete transform that panics with payload 5 on every input. -/
def wFnPanics : Nat → FnOutcome Nat Unit Nat :=
  fun _ => FnOutcome.panics 5

theorem mlookup_mdelete {α : Type} (j k : Nat) (m : List (Nat × α)) :
    mlookup j (mdelete k m) = if j = k then none else mlookup j m := by
  induction m with
  | nil => simp [mdelete, mlookup]
  | cons a rest ih =>
    obtain ⟨k1, v1⟩ := a
    by_cases hk : k1 = k
    · rw [show mdelete k ((k1, v1) :: rest) = mdelete k rest by
        simp only [mdelete, if_pos hk]]
      rw [ih]
      by_cases hj : j = k
      · simp [hj]
      · rw [if_neg hj, if_neg hj]
        have hk1j : ¬k1 = j := fun h => hj ((h.symm.trans hk))
        rw [show mlookup j ((k1, v1) :: rest) = mlookup j rest by
          simp only [mlookup, if_neg hk1j]]
    · rw [show mdelete k ((k1, v1) :: rest) = (k1, v1) :: mdelete k rest by
        simp only [mdelete, if_neg hk]]
      by_cases hj : k1 = j
      · have hjk : ¬j = k := fun h => hk (hj.trans h)
        rw [if_neg hjk]
        simp only [mlookup, if_pos hj]
      · simp only [mlookup, if_neg hj]
        exact ih

theorem mlookup_mapInsert {α : Type} (j k : Nat) (v : α) (m : List (Nat × α)) :
    mlookup j (mapInsert k v m) = if k = j then some v else mlookup j m := by
  by_cases hk : k = j
  · simp [mapInsert, mlookup, hk]
  · simp only [mapInsert, mlookup, if_neg hk, mlookup_mdelete]
    rw [if_neg (fun h => hk h.symm)]

theorem publishLoop_none {R E : Type} (opt : Options) (cancel : Nat → Bool)
    (s : CollSt R E) (h : mlookup s.nextIndex s.buffer = none) :
    publishLoop opt cancel s = (s, none) := by
  rw [publishLoop.eq_def, h]

theorem publishLoop_cancelled {R E : Type} (opt : Options) (cancel : Nat → Bool)
    (s : CollSt R E) (item : CResult R E)
    (h : mlookup s.nextIndex s.buffer = some item)
    (hc : cancel s.clock = true) :
    publishLoop opt cancel s =
      (CollSt.mk (mdelete s.nextIndex s.buffer) s.nextIndex s.successCount
        (s.clock + 1) s.emitted, some EndKind.cancelled) := by
  rw [publishLoop.eq_def, h]
  simp [hc]

theorem publishLoop_stop {R E : Type} (opt : Options) (cancel : Nat → Bool)
    (s : CollSt R E) (item : CResult R E)
    (h : mlookup s.nextIndex s.buffer = some item)
    (hc : cancel s.clock = false)
    (hstop : stopCond opt item (stepSucc item s.successCount) = true) :
    publishLoop opt cancel s =
      (CollSt.mk (mdelete s.nextIndex s.buffer) s.nextIndex
        (stepSucc item s.successCount) (s.clock + 1)
        (s.emitted ++ [(s.nextIndex, item)]), some EndKind.earlyStop) := by
  rw [publishLoop.eq_def, h]
  simp [hc, hstop]

theorem publishLoop_step {R E : Type} (opt : Options) (cancel : Nat → Bool)
    (s : CollSt R E) (item : CResult R E)
    (h : mlookup s.nextIndex s.buffer = some item)
    (hc : cancel s.clock = false)
    (hstop : stopCond opt item (stepSucc item s.successCount) = false) :
    publishLoop opt cancel s =
      publishLoop opt cancel
        (CollSt.mk (mdelete s.nextIndex s.buffer) (s.nextIndex + 1)
          (stepSucc item s.successCount) (s.clock + 1)
          (s.emitted ++ [(s.nextIndex, item)])) := by
  conv_lhs => rw [publishLoop.eq_def, h]
  simp [hc, hstop]

theorem emitted_length_of_fst_range {R E : Type} {s : CollSt R E}
    (hs : s.emitted.map Prod.fst = List.range s.nextIndex) :
    s.emitted.length = s.nextIndex := by
  have h1 : (s.emitted.map Prod.fst).length = (List.range s.nextIndex).length := by
    rw [hs]
  simpa using h1

theorem pub_range {R E : Type} (opt : Options) (cancel : Nat → Bool)
    (s : CollSt R E) :
    s.emitted.map Prod.fst = List.range s.nextIndex →
    ((∀ s', publishLoop opt cancel s = (s', none) →
        s'.emitted.map Prod.fst = List.range s'.nextIndex) ∧
      (∀ s' e, publishLoop opt cancel s = (s', some e) →
        s'.emitted.map Prod.fst = List.range s'.emitted.length)) := by
  induction s using publishLoop.induct opt cancel with
  | case1 s h =>
    intro hs
    constructor
    · intro s' heq
      rw [publishLoop_none opt cancel s h] at heq
      cases heq
      exact hs
    · intro s' e heq
      rw [publishLoop_none opt cancel s h] at heq
      simp at heq
  | case2 s item h hc =>
    intro hs
    constructor
    · intro s' heq
      rw [publishLoop_cancelled opt cancel s item h hc] at heq
      simp at heq
    · intro s' e heq
      rw [publishLoop_cancelled opt cancel s item h hc] at heq
      cases heq
      show s.emitted.map Prod.fst = List.range s.emitted.length
      rw [hs, emitted_length_of_fst_range hs]
  | case3 s item h hc hstop =>
    intro hs
    have hc' : cancel s.clock = false := by
      cases hcv : cancel s.clock
      · rfl
      · exact absurd hcv hc
    constructor
    · intro s' heq
      rw [publishLoop_stop opt cancel s item h hc' hstop] at heq
      simp at heq
    · intro s' e heq
      rw [publishLoop_stop opt cancel s item h hc' hstop] at heq
      cases heq
      show (s.emitted ++ [(s.nextIndex, item)]).map Prod.fst =
        List.range ((s.emitted ++ [(s.nextIndex, item)]).length)
      simp only [List.map_append, List.length_append, List.map_cons,
        List.map_nil, List.length_cons, List.length_nil]
      rw [hs, emitted_length_of_fst_range hs]
      simp [List.range_succ]
  | case4 s item h hc hstop ih =>
    intro hs
    have hc' : cancel s.clock = false := by
      cases hcv : cancel s.clock
      · rfl
      · exact absurd hcv hc
    have hstop' : stopCond opt item (stepSucc item s.successCount) = false := by
      cases hsv : stopCond opt item (stepSucc item s.successCount)
      · rfl
      · exact absurd hsv hstop
    have hs2 : (s.emitted ++ [(s.nextIndex, item)]).map Prod.fst =
        List.range (s.nextIndex + 1) := by
      simp only [List.map_append, List.map_cons, List.map_nil]
      rw [hs, List.range_succ]
    rw [publishLoop_step opt cancel s item h hc' hstop']
    exact ih hs2

theorem collect_range {R E : Type} (opt : Options) (cancel : Nat → Bool) :
    ∀ (rest : List (Nat × CResult R E)) (s : CollSt R E),
    s.emitted.map Prod.fst = List.range s.nextIndex →
    (collectLoop opt cancel rest s).1.emitted.map Prod.fst =
      List.range (collectLoop opt cancel rest s).1.emitted.length := by
  intro rest
  induction rest with
  | nil =>
    intro s hs
    simp only [collectLoop]
    rw [hs, emitted_length_of_fst_range hs]
  | cons a rest ih =>
    obtain ⟨i, r⟩ := a
    intro s hs
    simp only [collectLoop]
    rcases hpub : publishLoop opt cancel
        (CollSt.mk (mapInsert i r s.buffer) s.nextIndex s.successCount
          s.clock s.emitted) with ⟨s2, e⟩
    have hrange := pub_range opt cancel
      (CollSt.mk (mapInsert i r s.buffer) s.nextIndex s.successCount
        s.clock s.emitted) hs
    cases e with
    | none =>
      simp only []
      exact ih s2 (hrange.1 s2 hpub)
    | some ek =>
      simp only []
      exact hrange.2 s2 ek hpub

/-- Claim C1.  For every configuration, every arrival order of the indexed
results on the result channel, and every cancellation timing, the sequence
of original indices of the results emitted on the output channel is exactly
0, 1, 2, ... up to the number of emitted results: dense from 0 with no
gaps, and strictly increasing, so of two emitted results the one with the
smaller index is emitted first. -/
theorem mapOrdered_output_index_order {R E : Type} (opt : Options)
    (cancel : Nat → Bool) (arrivals : List (Nat × CResult R E)) :
    (runCollector opt cancel arrivals).1.emitted.map Prod.fst =
      List.range ((runCollector opt cancel arrivals).1.emitted.length) ∧
    List.Pairwise (· < ·)
      ((runCollector opt cancel arrivals).1.emitted.map Prod.fst) := by
  have h : (runCollector opt cancel arrivals).1.emitted.map Prod.fst =
      List.range ((runCollector opt cancel arrivals).1.emitted.length) :=
    collect_range opt cancel arrivals initColl (by simp [initColl])
  refine ⟨h, ?_⟩
  rw [h]
  exact List.pairwise_lt_range _

theorem coordinatorTrace_close {R E : Type} (opt : Options)
    (cancel : Nat → Bool) (arrivals : List (Nat × CResult R E)) :
    (coordinatorTrace opt cancel arrivals).filter OutEvent.isClose =
      [OutEvent.closeOutput] ∧
    (coordinatorTrace opt cancel arrivals).getLast? =
      some OutEvent.closeOutput := by
  constructor
  · simp only [coordinatorTrace, List.filter_append]
    rw [List.filter_eq_nil_iff.mpr ?_]
    · simp [OutEvent.isClose, List.filter]
    · intro a ha
      obtain ⟨q, _, hq⟩ := List.mem_map.mp ha
      rw [← hq]
      simp [OutEvent.isClose]
  · simp only [coordinatorTrace]
    exact List.getLast?_concat _

/-- Claim C8.  For every configuration, arrival order, and cancellation
timing, the Collector loop terminates with one of the three exit kinds
(normal completion with the result queue drained, early stop, or
cancellation), and on each of these exit paths the output stream trace
contains exactly one close event, which is its last event: the stream is
closed, exactly once, on every exit path. -/
theorem mapOrdered_output_closed_once {R E : Type} (opt : Options)
    (cancel : Nat → Bool) (arrivals : List (Nat × CResult R E)) :
    ((runCollector opt cancel arrivals).2 = EndKind.normal ∨
      (runCollector opt cancel arrivals).2 = EndKind.earlyStop ∨
      (runCollector opt cancel arrivals).2 = EndKind.cancelled) ∧
    (coordinatorTrace opt cancel arrivals).filter OutEvent.isClose =
      [OutEvent.closeOutput] ∧
    (coordinatorTrace opt cancel arrivals).getLast? =
      some OutEvent.closeOutput := by
  refine ⟨?_, (coordinatorTrace_close opt cancel arrivals).1,
    (coordinatorTrace_close opt cancel arrivals).2⟩
  cases (runCollector opt cancel arrivals).2 with
  | normal => exact Or.inl rfl
  | earlyStop => exact Or.inr (Or.inl rfl)
  | cancelled => exact Or.inr (Or.inr rfl)

theorem pub_c10 {R E : Type} (opt : Options) (cancel : Nat → Bool)
    (S : List Nat) (s : CollSt R E) :
    s.emitted.map Prod.fst = List.range s.nextIndex →
    (∀ k, (mlookup k s.buffer).isSome = true → k ∈ S) →
    ((∀ s', publishLoop opt cancel s = (s', none) →
        (s'.emitted.map Prod.fst = List.range s'.nextIndex ∧
          (∀ k, (mlookup k s'.buffer).isSome = true → k ∈ S))) ∧
      (∀ s' e, publishLoop opt cancel s = (s', some e) →
        (e = EndKind.cancelled →
          mlookup s'.nextIndex s'.buffer = none ∧ s'.nextIndex ∈ S ∧
            s'.emitted.map Prod.fst = List.range s'.nextIndex))) := by
  induction s using publishLoop.induct opt cancel with
  | case1 s h =>
    intro hs hkeys
    constructor
    · intro s' heq
      rw [publishLoop_none opt cancel s h] at heq
      cases heq
      exact ⟨hs, hkeys⟩
    · intro s' e heq
      rw [publishLoop_none opt cancel s h] at heq
      simp at heq
  | case2 s item h hc =>
    intro hs hkeys
    constructor
    · intro s' heq
      rw [publishLoop_cancelled opt cancel s item h hc] at heq
      simp at heq
    · intro s' e heq
      rw [publishLoop_cancelled opt cancel s item h hc] at heq
      cases heq
      intro _
      refine ⟨?_, ?_, hs⟩
      · show mlookup s.nextIndex (mdelete s.nextIndex s.buffer) = none
        rw [mlookup_mdelete]
        simp
      · exact hkeys s.nextIndex (by rw [h]; rfl)
  | case3 s item h hc hstop =>
    intro hs hkeys
    have hc' : cancel s.clock = false := by
      cases hcv : cancel s.clock
      · rfl
      · exact absurd hcv hc
    constructor
    · intro s' heq
      rw [publishLoop_stop opt cancel s item h hc' hstop] at heq
      simp at heq
    · intro s' e heq
      rw [publishLoop_stop opt cancel s item h hc' hstop] at heq
      cases heq
      intro hek
      cases hek
  | case4 s item h hc hstop ih =>
    intro hs hkeys
    have hc' : cancel s.clock = false := by
      cases hcv : cancel s.clock
      · rfl
      · exact absurd hcv hc
    have hstop' : stopCond opt item (stepSucc item s.successCount) = false := by
      cases hsv : stopCond opt item (stepSucc item s.successCount)
      · rfl
      · exact absurd hsv hstop
    have hs2 : (s.emitted ++ [(s.nextIndex, item)]).map Prod.fst =
        List.range (s.nextIndex + 1) := by
      simp only [List.map_append, List.map_cons, List.map_nil]
      rw [hs, List.range_succ]
    have hkeys2 : ∀ k,
        (mlookup k (mdelete s.nextIndex s.buffer)).isSome = true → k ∈ S := by
      intro k hk
      rw [mlookup_mdelete] at hk
      by_cases hkn : k = s.nextIndex
      · rw [if_pos hkn] at hk
        cases hk
      · rw [if_neg hkn] at hk
        exact hkeys k hk
    rw [publishLoop_step opt cancel s item h hc' hstop']
    exact ih hs2 hkeys2

theorem collect_c10 {R E : Type} (opt : Options) (cancel : Nat → Bool)
    (S : List Nat) :
    ∀ (rest : List (Nat × CResult R E)) (s : CollSt R E),
    s.emitted.map Prod.fst = List.range s.nextIndex →
    (∀ k, (mlookup k s.buffer).isSome = true → k ∈ S) →
    (∀ q ∈ rest, q.1 ∈ S) →
    ∀ s', collectLoop opt cancel rest s = (s', EndKind.cancelled) →
      mlookup s'.nextIndex s'.buffer = none ∧ s'.nextIndex ∈ S ∧
        s'.emitted.map Prod.fst = List.range s'.nextIndex := by
  intro rest
  induction rest with
  | nil =>
    intro s _ _ _ s' heq
    simp [collectLoop] at heq
  | cons a rest ih =>
    obtain ⟨i, r⟩ := a
    intro s hs hkeys hrest s' heq
    simp only [collectLoop] at heq
    rcases hpub : publishLoop opt cancel
        (CollSt.mk (mapInsert i r s.buffer) s.nextIndex s.successCount
          s.clock s.emitted) with ⟨s2, e⟩
    have hkeys1 : ∀ k,
        (mlookup k (mapInsert i r s.buffer)).isSome = true → k ∈ S := by
      intro k hk
      rw [mlookup_mapInsert] at hk
      by_cases hik : i = k
      · rw [← hik]
        exact hrest (i, r) (List.mem_cons_self _ _)
      · rw [if_neg hik] at hk
        exact hkeys k hk
    have hp := pub_c10 opt cancel S
      (CollSt.mk (mapInsert i r s.buffer) s.nextIndex s.successCount
        s.clock s.emitted) hs hkeys1
    rw [hpub] at heq
    cases e with
    | none =>
      exact ih s2 (hp.1 s2 hpub).1 (hp.1 s2 hpub).2
        (fun q hq => hrest q (List.mem_cons_of_mem _ hq)) s' heq
    | some ek =>
      have hfst : s2 = s' := congrArg Prod.fst heq
      have hsnd : ek = EndKind.cancelled := congrArg Prod.snd heq
      rw [hsnd] at hpub
      rw [← hfst]
      exact hp.2 s2 EndKind.cancelled hpub rfl

/-- Claim C10.  The emit step of the Collector is not atomic with respect
to cancellation: the result at the cursor is removed from the reorder
buffer before the select on the output push (map_ordered.go line 93 before
lines 94-97), so whenever a run ends with the cancelled exit, the index the
Collector was about to emit had been received (it is among the arrival
indices), is no longer in the buffer, and was never emitted; the output
stream is still closed (last trace event). -/
theorem mapOrdered_cancel_discards {R E : Type} (opt : Options)
    (cancel : Nat → Bool) (arrivals : List (Nat × CResult R E))
    (h : (runCollector opt cancel arrivals).2 = EndKind.cancelled) :
    (runCollector opt cancel arrivals).1.nextIndex ∈ arrivals.map Prod.fst ∧
    mlookup (runCollector opt cancel arrivals).1.nextIndex
      (runCollector opt cancel arrivals).1.buffer = none ∧
    (runCollector opt cancel arrivals).1.nextIndex ∉
      (runCollector opt cancel arrivals).1.emitted.map Prod.fst ∧
    (coordinatorTrace opt cancel arrivals).getLast? =
      some OutEvent.closeOutput := by
  have hrun : collectLoop opt cancel arrivals initColl =
      ((runCollector opt cancel arrivals).1, EndKind.cancelled) := by
    rw [← h]
    exact Prod.mk.eta.symm
  obtain ⟨h1, h2, h3⟩ := collect_c10 opt cancel (arrivals.map Prod.fst)
    arrivals initColl (by simp [initColl])
    (by intro k hk; simp [initColl, mlookup] at hk)
    (fun q hq => List.mem_map_of_mem Prod.fst hq)
    (runCollector opt cancel arrivals).1 hrun
  refine ⟨h2, h1, ?_, (coordinatorTrace_close opt cancel arrivals).2⟩
  rw [h3]
  exact List.not_mem_range_self

theorem runCollector_wArrOne_eval :
    runCollector wOptPlain alwaysCancel wArrOne =
      (CollSt.mk [] 0 0 1 [], EndKind.cancelled) := by
  simp [runCollector, collectLoop, publishLoop, initColl, mapInsert,
    mlookup, mdelete, alwaysCancel, wArrOne, wOptPlain]

/-- Witness for claim C10 at a concrete run: one arrival at index 0, and a
context that is already done at the emission select. -/
theorem mapOrdered_cancel_discards_witness :
    (runCollector wOptPlain alwaysCancel wArrOne).1.nextIndex ∈
      wArrOne.map Prod.fst ∧
    mlookup (runCollector wOptPlain alwaysCancel wArrOne).1.nextIndex
      (runCollector wOptPlain alwaysCancel wArrOne).1.buffer = none ∧
    (runCollector wOptPlain alwaysCancel wArrOne).1.nextIndex ∉
      (runCollector wOptPlain alwaysCancel wArrOne).1.emitted.map Prod.fst ∧
    (coordinatorTrace wOptPlain alwaysCancel wArrOne).getLast? =
      some OutEvent.closeOutput :=
  mapOrdered_cancel_discards wOptPlain alwaysCancel wArrOne
    (by rw [runCollector_wArrOne_eval])

/-- Claim C9.  For every fault payload p, the Error method of the
PanicError wrapping p returns the constant string and the payload is kept
unchanged in the Panic field. -/
theorem panicError_message_constant {P : Type} (p : P) :
    (PanicError.mk p).Error = "panic occurred" ∧
    (PanicError.mk p).Panic = p :=
  ⟨rfl, rfl⟩

/-- Claim C6.  Invalid configuration is normalized, never rejected:
Workers at most 0 becomes 1, then MaxInFlight below Workers becomes
Workers; the resulting configuration satisfies 1 <= Workers <=
MaxInFlight, the remaining fields are untouched, and the normalization is
a total function (MapOrdered proceeds on every Options value and has no
error path for configuration). -/
theorem mapOrdered_config_normalized (opt : Options) :
    (normalizeOptions opt).Workers =
      (if opt.Workers ≤ 0 then 1 else opt.Workers) ∧
    (normalizeOptions opt).MaxInFlight =
      (if opt.MaxInFlight < (if opt.Workers ≤ 0 then 1 else opt.Workers)
        then (if opt.Workers ≤ 0 then 1 else opt.Workers)
        else opt.MaxInFlight) ∧
    1 ≤ (normalizeOptions opt).Workers ∧
    (normalizeOptions opt).Workers ≤ (normalizeOptions opt).MaxInFlight ∧
    (normalizeOptions opt).EarlyStopN = opt.EarlyStopN ∧
    (normalizeOptions opt).PanicAsError = opt.PanicAsError ∧
    (normalizeOptions opt).TaskTimeout = opt.TaskTimeout := by
  obtain ⟨w, mif, k, pae, tt⟩ := opt
  simp only [normalizeOptions]
  by_cases h1 : w ≤ 0
  · simp only [if_pos h1]
    by_cases h2 : mif < 1
    · simp only [if_pos h2]
      refine ⟨?_, ?_, ?_, ?_, ?_, ?_, ?_⟩ <;> first | rfl | omega | simp [h2]
    · simp only [if_neg h2]
      refine ⟨?_, ?_, ?_, ?_, ?_, ?_, ?_⟩ <;> first | rfl | omega | simp [h2]
  · simp only [if_neg h1]
    by_cases h2 : mif < w
    · simp only [if_pos h2]
      refine ⟨?_, ?_, ?_, ?_, ?_, ?_, ?_⟩ <;> first | rfl | omega | simp [h2]
    · simp only [if_neg h2]
      refine ⟨?_, ?_, ?_, ?_, ?_, ?_, ?_⟩ <;> first | rfl | omega | simp [h2]

/-- Claim C3 concerns the code, which does not satisfy it: on the
early-stop exit the Collector goroutine only returns and the deferred
close(output) runs; MapOrdered owns no cancel function for the shared
context, so the shared cancellation signal is not raised, and a worker
blocked on its result-channel send, whose select can only complete through
shared cancellation or a receiving Collector, stays blocked. -/
theorem earlyStop_does_not_signal_cancel :
    collectorExitSteps EndKind.earlyStop = [CoordStep.closeOutput] ∧
    CoordStep.cancelShared ∉ collectorExitSteps EndKind.earlyStop ∧
    workerSendUnblocked false false = false := by
  refine ⟨rfl, ?_, rfl⟩
  intro hmem
  simp [collectorExitSteps] at hmem

theorem normalizeOptions_EarlyStopN (opt : Options) :
    (normalizeOptions opt).EarlyStopN = opt.EarlyStopN :=
  (mapOrdered_config_normalized opt).2.2.2.2.1

theorem normalizeOptions_PanicAsError (opt : Options) :
    (normalizeOptions opt).PanicAsError = opt.PanicAsError :=
  (mapOrdered_config_normalized opt).2.2.2.2.2.1

theorem runTask_true_eq {T R E P : Type} [Inhabited R]
    (f : T → FnOutcome R E P) (x : T) :
    runTask true f x = Except.ok (runTaskTotal f x) := by
  unfold runTask runTaskTotal
  cases f x <;> simp

theorem syncMapSpec_true {T R E P : Type} [Inhabited R]
    (f : T → FnOutcome R E P) :
    ∀ xs : List T,
    syncMapSpec true f xs = Except.ok (xs.map (runTaskTotal f)) := by
  intro xs
  induction xs with
  | nil => simp [syncMapSpec]
  | cons x rest ih => simp [syncMapSpec, runTask_true_eq, ih]

theorem runWorker1_submitFrom {T R E P : Type} [Inhabited R]
    (panicAsError : Bool) (f : T → FnOutcome R E P) :
    ∀ (xs : List T) (n : Nat),
    runWorker1 panicAsError f (submitFrom n xs) =
      (match syncMapSpec panicAsError f xs with
        | Except.error p => Except.error p
        | Except.ok l => Except.ok (submitFrom n l)) := by
  intro xs
  induction xs with
  | nil => intro n; simp [submitFrom, runWorker1, syncMapSpec]
  | cons x rest ih =>
    intro n
    simp only [submitFrom, runWorker1, syncMapSpec]
    cases htask : runTask panicAsError f x with
    | error p => simp
    | ok r =>
      rw [ih (n + 1)]
      cases hsync : syncMapSpec panicAsError f rest with
      | error p => simp
      | ok l => simp [submitFrom]

theorem submitFrom_map_snd {α : Type} :
    ∀ (l : List α) (n : Nat), (submitFrom n l).map Prod.snd = l := by
  intro l
  induction l with
  | nil => intro n; simp [submitFrom]
  | cons x rest ih => intro n; simp [submitFrom, ih]

theorem stopCond_of_nonpos {R E : Type} (opt : Options)
    (hK : opt.EarlyStopN ≤ 0) (item : CResult R E) (succ2 : Nat) :
    stopCond opt item succ2 = false := by
  unfold stopCond
  have hd : decide (0 < opt.EarlyStopN) = false := by
    simp only [decide_eq_false_iff_not]
    omega
  rw [hd]
  simp

theorem collect_sorted {R E : Type} (opt : Options) (hK : opt.EarlyStopN ≤ 0) :
    ∀ (l : List (CResult R E)) (n sc ck : Nat)
      (em : List (Nat × CResult R E)),
    ((collectLoop opt neverCancel (submitFrom n l)
        (CollSt.mk [] n sc ck em)).2 = EndKind.normal ∧
      (collectLoop opt neverCancel (submitFrom n l)
        (CollSt.mk [] n sc ck em)).1.emitted = em ++ submitFrom n l) := by
  intro l
  induction l with
  | nil =>
    intro n sc ck em
    simp [submitFrom, collectLoop]
  | cons r rest ih =>
    intro n sc ck em
    have hb : mdelete n (mapInsert n r ([] : List (Nat × CResult R E))) = [] := by
      simp [mapInsert, mdelete]
    have hcol : collectLoop opt neverCancel
        ((n, r) :: submitFrom (n + 1) rest) (CollSt.mk [] n sc ck em) =
        collectLoop opt neverCancel (submitFrom (n + 1) rest)
          (CollSt.mk [] (n + 1) (stepSucc r sc) (ck + 1)
            (em ++ [(n, r)])) := by
      simp only [collectLoop]
      rw [publishLoop_step opt neverCancel
        (CollSt.mk (mapInsert n r []) n sc ck em) r
        (by simp [mapInsert, mdelete, mlookup]) rfl
        (stopCond_of_nonpos opt hK r _)]
      rw [hb]
      rw [publishLoop_none opt neverCancel
        (CollSt.mk [] (n + 1) (stepSucc r sc) (ck + 1) (em ++ [(n, r)]))
        (by simp [mlookup])]
    rw [show submitFrom n (r :: rest) = (n, r) :: submitFrom (n + 1) rest
      from rfl]
    rw [hcol]
    have hres := ih (n + 1) (stepSucc r sc) (ck + 1) (em ++ [(n, r)])
    refine ⟨hres.1, ?_⟩
    rw [hres.2]
    simp

theorem mapOrderedSeq_eq_sync {T R E P : Type} [Inhabited R] (opt : Options)
    (f : T → FnOutcome R E P) (inputs : List T)
    (hK : opt.EarlyStopN ≤ 0) :
    mapOrderedSeq opt f inputs =
      (match syncMapSpec opt.PanicAsError f inputs with
        | Except.error p => Except.error p
        | Except.ok l => Except.ok (l, EndKind.normal)) := by
  have hKn : (normalizeOptions opt).EarlyStopN ≤ 0 := by
    rw [normalizeOptions_EarlyStopN]
    exact hK
  simp only [mapOrderedSeq, submitAll]
  rw [runWorker1_submitFrom, normalizeOptions_PanicAsError]
  cases hsync : syncMapSpec opt.PanicAsError f inputs with
  | error p => simp
  | ok l =>
    simp only []
    have hc := collect_sorted (normalizeOptions opt) hKn l 0 0 0 []
    have h2 : (runCollector (normalizeOptions opt) neverCancel
        (submitFrom 0 l)).2 = EndKind.normal := hc.1
    have h1 : (runCollector (normalizeOptions opt) neverCancel
        (submitFrom 0 l)).1.emitted = submitFrom 0 l := by
      have h3 := hc.2
      rw [List.nil_append] at h3
      exact h3
    rw [show (runCollector (normalizeOptions opt) neverCancel
        (submitFrom 0 l)).1.emitted.map Prod.snd = l from by
      rw [h1, submitFrom_map_snd], h2]

/-- Claim C5.  With one worker and no early stop or cancellation, the
pipeline (Submitter, the single worker consuming tasks in order, and the
Collector) emits exactly the sequence obtained by applying the transform
synchronously to each input item in arrival order, and ends normally; an
unconverted panic aborts both sides identically. -/
theorem mapOrdered_workers_one_sequential {T R E P : Type} [Inhabited R]
    (opt : Options) (f : T → FnOutcome R E P) (inputs : List T)
    (hK : opt.EarlyStopN ≤ 0) :
    mapOrderedSeq opt f inputs =
      (match syncMapSpec opt.PanicAsError f inputs with
        | Except.error p => Except.error p
        | Except.ok l => Except.ok (l, EndKind.normal)) :=
  mapOrderedSeq_eq_sync opt f inputs hK

/-- Witness for claim C5: doubling three numbers through the pipeline
equals the synchronous map. -/
theorem mapOrdered_workers_one_sequential_witness :
    mapOrderedSeq wOptPlain wFnDouble [1, 2, 3] =
      (match syncMapSpec wOptPlain.PanicAsError wFnDouble [1, 2, 3] with
        | Except.error p => Except.error p
        | Except.ok l => Except.ok (l, EndKind.normal)) :=
  mapOrdered_workers_one_sequential wOptPlain wFnDouble [1, 2, 3] (by decide)

/-- Claim C4.  If PanicAsError is set, a transform fault on item i is
captured: the pipeline output has, in slot i, a Result whose error is the
PanicError wrapping the fault payload (and the Go zero value, `default`,
as its value), every slot is still produced, and the run ends normally.
If PanicAsError is not set, the fault is not suppressed: the worker
re-raises it and the run aborts with the payload. -/
theorem mapOrdered_panic_isolation {T R E P : Type} [Inhabited R]
    (opt : Options) (f : T → FnOutcome R E P) (inputs : List T)
    (i : Nat) (p : P) (hi : i < inputs.length)
    (hK : opt.EarlyStopN ≤ 0)
    (hf : f (inputs.get ⟨i, hi⟩) = FnOutcome.panics p) :
    (opt.PanicAsError = true →
      mapOrderedSeq opt f inputs =
        Except.ok (inputs.map (runTaskTotal f), EndKind.normal) ∧
      (inputs.map (runTaskTotal f)).get? i =
        some (CResult.mk default
          (some (GoError.panicked (PanicError.mk p)))) ∧
      (inputs.map (runTaskTotal f)).length = inputs.length) ∧
    runTask false f (inputs.get ⟨i, hi⟩) = Except.error p := by
  constructor
  · intro hpae
    refine ⟨?_, ?_, by simp⟩
    · rw [mapOrderedSeq_eq_sync opt f inputs hK, hpae, syncMapSpec_true]
    · rw [List.get?_map, List.get?_eq_get hi]
      show some (runTaskTotal f (inputs.get ⟨i, hi⟩)) = _
      rw [show runTaskTotal f (inputs.get ⟨i, hi⟩) =
        CResult.mk default (some (GoError.panicked (PanicError.mk p))) from by
        unfold runTaskTotal
        rw [hf]]
  · unfold runTask
    rw [hf]
    simp

/-- Witness for claim C4: a single input on which the transform panics
with payload 5. -/
theorem mapOrdered_panic_isolation_witness :
    (wOptOne.PanicAsError = true →
      mapOrderedSeq wOptOne wFnPanics [7] =
        Except.ok ([7].map (runTaskTotal wFnPanics), EndKind.normal) ∧
      ([7].map (runTaskTotal wFnPanics)).get? 0 =
        some (CResult.mk default
          (some (GoError.panicked (PanicError.mk 5)))) ∧
      ([7].map (runTaskTotal wFnPanics)).length = [7].length) ∧
    runTask false wFnPanics ([7].get ⟨0, Nat.one_pos⟩) = Except.error 5 :=
  mapOrdered_panic_isolation wOptOne wFnPanics [7] 0 5 Nat.one_pos
    (by decide) rfl

theorem pub_preserve {R E : Type} (opt : Options)
    (p : List (Nat × CResult R E)) (s : CollSt R E) :
    CollInv p opt s →
    ((∀ s', publishLoop opt neverCancel s = (s', none) →
        CollInv p opt s' ∧ mlookup s'.nextIndex s'.buffer = none) ∧
      (∀ s', publishLoop opt neverCancel s = (s', some EndKind.earlyStop) →
        EarlyOut p opt s') ∧
      (∀ s', publishLoop opt neverCancel s = (s', some EndKind.cancelled) →
        False) ∧
      (∀ s', publishLoop opt neverCancel s = (s', some EndKind.normal) →
        False)) := by
  induction s using publishLoop.induct opt neverCancel with
  | case1 s h =>
    intro hinv
    refine ⟨?_, ?_, ?_, ?_⟩
    · intro s' heq
      rw [publishLoop_none opt neverCancel s h] at heq
      cases heq
      exact ⟨hinv, h⟩
    · intro s' heq
      rw [publishLoop_none opt neverCancel s h] at heq
      simp at heq
    · intro s' heq
      rw [publishLoop_none opt neverCancel s h] at heq
      simp at heq
    · intro s' heq
      rw [publishLoop_none opt neverCancel s h] at heq
      simp at heq
  | case2 s item h hc =>
    intro _
    simp [neverCancel] at hc
  | case3 s item h hc hstop =>
    intro hinv
    have hparts : item.Err.isNone = true ∧ 0 < opt.EarlyStopN ∧
        opt.EarlyStopN ≤ ((stepSucc item s.successCount : Nat) : Int) := by
      have h1 := hstop
      unfold stopCond at h1
      simp only [Bool.and_eq_true, decide_eq_true_eq] at h1
      exact ⟨h1.1.1, h1.1.2, h1.2⟩
    have hsucc2 : stepSucc item s.successCount = s.successCount + 1 := by
      unfold stepSucc
      rw [hparts.1]
      simp
    refine ⟨?_, ?_, ?_, ?_⟩
    · intro s' heq
      rw [publishLoop_stop opt neverCancel s item h rfl hstop] at heq
      simp at heq
    · intro s' heq
      rw [publishLoop_stop opt neverCancel s item h rfl hstop] at heq
      cases heq
      refine ⟨hparts.2.1, ?_, ?_, ?_, ?_⟩
      · show (s.emitted ++ [(s.nextIndex, item)]).map Prod.fst =
          List.range ((s.emitted ++ [(s.nextIndex, item)]).length)
        simp only [List.map_append, List.length_append, List.map_cons,
          List.map_nil, List.length_cons, List.length_nil]
        rw [hinv.emit_fst, emitted_length_of_fst_range hinv.emit_fst]
        simp [List.range_succ]
      · intro q hq
        obtain ⟨qi, qv⟩ := q
        rcases List.mem_append.mp hq with hq1 | hq2
        · exact ((hinv.emit_iff qi qv).mp hq1).1
        · rw [List.mem_singleton] at hq2
          rw [hq2]
          exact ((hinv.buf_iff s.nextIndex item).mp h).1
      · show (((s.emitted ++ [(s.nextIndex, item)]).filter
          (fun q => q.2.Err.isNone)).length : Int) = opt.EarlyStopN
        rw [List.filter_append]
        simp only [List.filter_cons, List.filter_nil, hparts.1, if_true,
          List.length_append, List.length_cons, List.length_nil]
        have h1 := hinv.succ_lt hparts.2.1
        have h2 := hparts.2.2
        rw [hsucc2] at h2
        rw [← hinv.succ_eq]
        omega
      · exact ⟨s.emitted, (s.nextIndex, item), rfl, hparts.1⟩
    · intro s' heq
      rw [publishLoop_stop opt neverCancel s item h rfl hstop] at heq
      simp at heq
    · intro s' heq
      rw [publishLoop_stop opt neverCancel s item h rfl hstop] at heq
      simp at heq
  | case4 s item h hc hstop ih =>
    intro hinv
    have hstop' : stopCond opt item (stepSucc item s.successCount) = false := by
      cases hsv : stopCond opt item (stepSucc item s.successCount)
      · rfl
      · exact absurd hsv hstop
    have hmemp : (s.nextIndex, item) ∈ p :=
      ((hinv.buf_iff s.nextIndex item).mp h).1
    have hinvt : CollInv p opt
        (CollSt.mk (mdelete s.nextIndex s.buffer) (s.nextIndex + 1)
          (stepSucc item s.successCount) (s.clock + 1)
          (s.emitted ++ [(s.nextIndex, item)])) := by
      refine ⟨?_, ?_, ?_, ?_, ?_⟩
      · show (s.emitted ++ [(s.nextIndex, item)]).map Prod.fst =
          List.range (s.nextIndex + 1)
        simp only [List.map_append, List.map_cons, List.map_nil]
        rw [hinv.emit_fst, List.range_succ]
      · intro j q
        show mlookup j (mdelete s.nextIndex s.buffer) = some q ↔
          ((j, q) ∈ p ∧ s.nextIndex + 1 ≤ j)
        rw [mlookup_mdelete]
        by_cases hjn : j = s.nextIndex
        · rw [if_pos hjn]
          constructor
          · intro hx
            cases hx
          · rintro ⟨_, hle⟩
            omega
        · rw [if_neg hjn]
          rw [hinv.buf_iff j q]
          constructor
          · rintro ⟨hm, hle⟩
            exact ⟨hm, by omega⟩
          · rintro ⟨hm, hle⟩
            exact ⟨hm, by omega⟩
      · intro j q
        show (j, q) ∈ s.emitted ++ [(s.nextIndex, item)] ↔
          ((j, q) ∈ p ∧ j < s.nextIndex + 1)
        rw [List.mem_append, List.mem_singleton, hinv.emit_iff j q]
        constructor
        · rintro (⟨hm, hlt⟩ | hx)
          · exact ⟨hm, by omega⟩
          · injection hx with h1 h2
            subst h1
            subst h2
            exact ⟨hmemp, by omega⟩
        · rintro ⟨hm, hlt⟩
          by_cases hjn : j < s.nextIndex
          · exact Or.inl ⟨hm, hjn⟩
          · have hje : j = s.nextIndex := by omega
            subst hje
            have hlook : mlookup s.nextIndex s.buffer = some q :=
              (hinv.buf_iff s.nextIndex q).mpr ⟨hm, le_refl s.nextIndex⟩
            have hqi : q = item := by
              have := hlook.symm.trans h
              injection this
            rw [hqi]
            exact Or.inr rfl
      · show stepSucc item s.successCount =
          ((s.emitted ++ [(s.nextIndex, item)]).filter
            (fun q => q.2.Err.isNone)).length
        unfold stepSucc
        rw [List.filter_append]
        cases hie : item.Err.isNone
        · simp [List.filter_cons, hie, hinv.succ_eq]
        · simp [List.filter_cons, hie, ← hinv.succ_eq]
      · intro hKpos
        show ((stepSucc item s.successCount : Nat) : Int) < opt.EarlyStopN
        have h1 : ¬(opt.EarlyStopN ≤ ((stepSucc item s.successCount : Nat) : Int)) := by
          intro hle
          cases hie : item.Err.isNone
          · unfold stepSucc at hle
            rw [hie] at hle
            simp only [Bool.false_eq_true, if_false] at hle
            have := hinv.succ_lt hKpos
            omega
          · have hx : stopCond opt item (stepSucc item s.successCount) = true := by
              unfold stopCond
              simp [hie, hKpos, hle]
            rw [hx] at hstop'
            cases hstop'
        omega
    rw [publishLoop_step opt neverCancel s item h rfl hstop']
    exact ih hinvt

theorem collect_preserve {R E : Type} (opt : Options) :
    ∀ (rest p : List (Nat × CResult R E)) (s : CollSt R E),
    ((p ++ rest).map Prod.fst).Nodup →
    CollInv p opt s → mlookup s.nextIndex s.buffer = none →
    ((∀ s', collectLoop opt neverCancel rest s = (s', EndKind.normal) →
        CollInv (p ++ rest) opt s' ∧ mlookup s'.nextIndex s'.buffer = none) ∧
      (∀ s', collectLoop opt neverCancel rest s = (s', EndKind.earlyStop) →
        EarlyOut (p ++ rest) opt s') ∧
      (∀ s', collectLoop opt neverCancel rest s = (s', EndKind.cancelled) →
        False)) := by
  intro rest
  induction rest with
  | nil =>
    intro p s _ hinv hcur
    refine ⟨?_, ?_, ?_⟩
    · intro s' heq
      simp only [collectLoop] at heq
      cases heq
      rw [List.append_nil]
      exact ⟨hinv, hcur⟩
    · intro s' heq
      simp only [collectLoop] at heq
      simp at heq
    · intro s' heq
      simp only [collectLoop] at heq
      simp at heq
  | cons a rest ih =>
    obtain ⟨i, r⟩ := a
    intro p s hnd hinv hcur
    have hnd2 : (i :: (p.map Prod.fst ++ rest.map Prod.fst)).Nodup := by
      apply List.nodup_middle.mp
      rw [List.map_append, List.map_cons] at hnd
      exact hnd
    rw [List.nodup_cons] at hnd2
    have hni : i ∉ p.map Prod.fst :=
      fun hx => hnd2.1 (List.mem_append.mpr (Or.inl hx))
    have hlei : s.nextIndex ≤ i := by
      by_contra hlt
      push_neg at hlt
      have hmem : i ∈ s.emitted.map Prod.fst := by
        rw [hinv.emit_fst]
        exact List.mem_range.mpr hlt
      obtain ⟨q, hq, hqi⟩ := List.mem_map.mp hmem
      obtain ⟨qi, qv⟩ := q
      have hqp := (hinv.emit_iff qi qv).mp hq
      apply hni
      rw [← hqi]
      exact List.mem_map.mpr ⟨(qi, qv), hqp.1, rfl⟩
    have hins : CollInv (p ++ [(i, r)]) opt
        (CollSt.mk (mapInsert i r s.buffer) s.nextIndex s.successCount
          s.clock s.emitted) := by
      refine ⟨hinv.emit_fst, ?_, ?_, hinv.succ_eq, hinv.succ_lt⟩
      · intro j q
        show mlookup j (mapInsert i r s.buffer) = some q ↔
          ((j, q) ∈ p ++ [(i, r)] ∧ s.nextIndex ≤ j)
        rw [mlookup_mapInsert]
        by_cases hij : i = j
        · rw [if_pos hij]
          subst hij
          constructor
          · intro hx
            injection hx with hx2
            subst hx2
            exact ⟨List.mem_append.mpr (Or.inr (List.mem_singleton.mpr rfl)),
              hlei⟩
          · rintro ⟨hm, _⟩
            rcases List.mem_append.mp hm with hm1 | hm2
            · exact absurd (List.mem_map.mpr ⟨(i, q), hm1, rfl⟩) hni
            · rw [List.mem_singleton] at hm2
              injection hm2 with _ h2
              rw [h2]
        · rw [if_neg hij]
          rw [hinv.buf_iff j q]
          constructor
          · rintro ⟨hm, hle⟩
            exact ⟨List.mem_append.mpr (Or.inl hm), hle⟩
          · rintro ⟨hm, hle⟩
            rcases List.mem_append.mp hm with hm1 | hm2
            · exact ⟨hm1, hle⟩
            · rw [List.mem_singleton] at hm2
              injection hm2 with h1 _
              exact absurd h1.symm hij
      · intro j q
        show (j, q) ∈ s.emitted ↔ ((j, q) ∈ p ++ [(i, r)] ∧ j < s.nextIndex)
        rw [hinv.emit_iff j q]
        constructor
        · rintro ⟨hm, hlt⟩
          exact ⟨List.mem_append.mpr (Or.inl hm), hlt⟩
        · rintro ⟨hm, hlt⟩
          rcases List.mem_append.mp hm with hm1 | hm2
          · exact ⟨hm1, hlt⟩
          · rw [List.mem_singleton] at hm2
            injection hm2 with h1 _
            exact absurd hlt (by omega)
    have hpub := pub_preserve opt (p ++ [(i, r)])
      (CollSt.mk (mapInsert i r s.buffer) s.nextIndex s.successCount
        s.clock s.emitted) hins
    have hassoc : p ++ (i, r) :: rest = (p ++ [(i, r)]) ++ rest := by simp
    rcases hp2 : publishLoop opt neverCancel
        (CollSt.mk (mapInsert i r s.buffer) s.nextIndex s.successCount
          s.clock s.emitted) with ⟨s2, e⟩
    cases e with
    | none =>
      have hi2 := hpub.1 s2 hp2
      have hih := ih (p ++ [(i, r)]) s2
        (by rw [show (p ++ [(i, r)]) ++ rest = p ++ (i, r) :: rest by simp]
            exact hnd)
        hi2.1 hi2.2
      have hcl : collectLoop opt neverCancel ((i, r) :: rest) s =
          collectLoop opt neverCancel rest s2 := by
        simp only [collectLoop]
        rw [hp2]
      rw [hassoc]
      rw [hcl]
      exact hih
    | some ek =>
      have hcl : collectLoop opt neverCancel ((i, r) :: rest) s = (s2, ek) := by
        simp only [collectLoop]
        rw [hp2]
      rw [hassoc, hcl]
      cases ek with
      | normal =>
        exact ⟨fun s' heq => ((hpub.2.2.2 s2 hp2).elim),
          fun s' heq => (by simp at heq),
          fun s' heq => (by simp at heq)⟩
      | earlyStop =>
        refine ⟨?_, ?_, ?_⟩
        · intro s' heq
          simp at heq
        · intro s' heq
          have hfst : s2 = s' := congrArg Prod.fst heq
          rw [← hfst]
          have he := hpub.2.1 s2 hp2
          refine ⟨he.quota_pos, he.emit_range, ?_, he.succ_quota, he.last_succ⟩
          intro q hq
          have hq2 := he.emit_sub q hq
          rcases List.mem_append.mp hq2 with hq3 | hq4
          · exact List.mem_append.mpr (Or.inl (List.mem_append.mpr (Or.inl hq3)))
          · exact List.mem_append.mpr (Or.inl (List.mem_append.mpr (Or.inr hq4)))
        · intro s' heq
          simp at heq
      | cancelled =>
        exact ⟨fun s' heq => ((hpub.2.2.1 s2 hp2).elim),
          fun s' heq => ((hpub.2.2.1 s2 hp2).elim),
          fun s' heq => ((hpub.2.2.1 s2 hp2).elim)⟩

theorem nodup_fst_unique {α : Type} {A : List (Nat × α)}
    (hnd : (A.map Prod.fst).Nodup) {i : Nat} {r r' : α}
    (h1 : (i, r) ∈ A) (h2 : (i, r') ∈ A) : r = r' := by
  induction A with
  | nil => cases h1
  | cons a rest ih =>
    rw [List.map_cons, List.nodup_cons] at hnd
    rcases List.mem_cons.mp h1 with he1 | ht1
    · rcases List.mem_cons.mp h2 with he2 | ht2
      · exact congrArg Prod.snd (he1.trans he2.symm)
      · exfalso
        apply hnd.1
        rw [← he1]
        exact List.mem_map.mpr ⟨(i, r'), ht2, rfl⟩
    · rcases List.mem_cons.mp h2 with he2 | ht2
      · exfalso
        apply hnd.1
        rw [← he2]
        exact List.mem_map.mpr ⟨(i, r), ht1, rfl⟩
      · exact ih hnd.2 ht1 ht2

theorem run_characterize {R E : Type} (opt : Options)
    (A : List (Nat × CResult R E))
    (hperm : (A.map Prod.fst).Perm (List.range A.length)) :
    ((∀ s', runCollector opt neverCancel A = (s', EndKind.normal) →
        (s'.emitted.map Prod.fst = List.range A.length ∧
          (∀ i r, ((i, r) ∈ A ↔ (i, r) ∈ s'.emitted)) ∧
          (0 < opt.EarlyStopN →
            (((s'.emitted.filter (fun q => q.2.Err.isNone)).length : Int) <
              opt.EarlyStopN)))) ∧
      (∀ s', runCollector opt neverCancel A = (s', EndKind.earlyStop) →
        EarlyOut A opt s') ∧
      (∀ s', runCollector opt neverCancel A = (s', EndKind.cancelled) →
        False)) := by
  have hnd : (A.map Prod.fst).Nodup := hperm.symm.nodup (List.nodup_range _)
  have hinit : CollInv ([] : List (Nat × CResult R E)) opt
      (initColl : CollSt R E) := by
    refine ⟨by simp [initColl], ?_, ?_, by simp [initColl], ?_⟩
    · intro i r
      simp [initColl, mlookup]
    · intro i r
      simp [initColl]
    · intro _
      simp [initColl]
      omega
  have hcp := collect_preserve opt A [] initColl (by simpa using hnd) hinit
    (by simp [initColl, mlookup])
  refine ⟨?_, ?_, ?_⟩
  · intro s' heq
    obtain ⟨hinvA, hcur⟩ := hcp.1 s' heq
    rw [List.nil_append] at hinvA
    have hcov : ∀ j, j < A.length → j ∈ A.map Prod.fst := by
      intro j hj
      exact hperm.mem_iff.mpr (List.mem_range.mpr hj)
    have hbound : ∀ j, j ∈ A.map Prod.fst → j < A.length := by
      intro j hj
      exact List.mem_range.mp (hperm.mem_iff.mp hj)
    have hNle : s'.nextIndex ≤ A.length := by
      by_contra hx
      push_neg at hx
      have hmem : A.length ∈ s'.emitted.map Prod.fst := by
        rw [hinvA.emit_fst]
        exact List.mem_range.mpr hx
      obtain ⟨q, hq, hqi⟩ := List.mem_map.mp hmem
      obtain ⟨qi, qv⟩ := q
      have hqp := (hinvA.emit_iff qi qv).mp hq
      have : qi < A.length :=
        hbound qi (List.mem_map.mpr ⟨(qi, qv), hqp.1, rfl⟩)
      omega
    have hNge : A.length ≤ s'.nextIndex := by
      by_contra hx
      push_neg at hx
      obtain ⟨q, hq, hqi⟩ := List.mem_map.mp (hcov s'.nextIndex hx)
      obtain ⟨qi, qv⟩ := q
      have hqi2 : qi = s'.nextIndex := hqi
      have hlook : mlookup s'.nextIndex s'.buffer = some qv := by
        apply (hinvA.buf_iff s'.nextIndex qv).mpr
        constructor
        · rw [show (s'.nextIndex, qv) = (qi, qv) by rw [hqi2]]
          exact hq
        · exact le_refl _
      rw [hcur] at hlook
      cases hlook
    have hN : s'.nextIndex = A.length := by omega
    refine ⟨by rw [← hN]; exact hinvA.emit_fst, ?_, ?_⟩
    · intro i r
      rw [hinvA.emit_iff i r]
      constructor
      · intro hm
        refine ⟨hm, ?_⟩
        rw [hN]
        exact hbound i (List.mem_map.mpr ⟨(i, r), hm, rfl⟩)
      · intro hm
        exact hm.1
    · intro hK
      rw [← hinvA.succ_eq]
      exact hinvA.succ_lt hK
  · intro s' heq
    have he := hcp.2.1 s' heq
    rw [List.nil_append] at he
    exact he
  · intro s' heq
    exact hcp.2.2 s' heq

/-- Claim C2 as amended.  With EarlyStopN = K > 0, arrivals covering every
index exactly once (a full uncancelled run), and at least K successes among
them, the Collector ends with the early-stop exit (so the stream closes),
having emitted exactly K successful results: the emitted list is a dense
prefix of the index order, each emitted pair is one of the arrivals, its
successes number exactly K, and its last element is the quota-reaching
success — so no result with index beyond the Kth success is ever
emitted.  The error results preceding the Kth success are emitted as well,
which is why the original claim of exactly K emitted results overall fails. -/
theorem mapOrdered_early_stop_quota {R E : Type} (opt : Options)
    (A : List (Nat × CResult R E))
    (hperm : (A.map Prod.fst).Perm (List.range A.length))
    (hK : 0 < opt.EarlyStopN)
    (havail : opt.EarlyStopN ≤
      ((A.filter (fun q => q.2.Err.isNone)).length : Int)) :
    (runCollector opt neverCancel A).2 = EndKind.earlyStop ∧
    (((runCollector opt neverCancel A).1.emitted.filter
        (fun q => q.2.Err.isNone)).length : Int) = opt.EarlyStopN ∧
    (runCollector opt neverCancel A).1.emitted.map Prod.fst =
      List.range ((runCollector opt neverCancel A).1.emitted.length) ∧
    (∀ q ∈ (runCollector opt neverCancel A).1.emitted, q ∈ A) ∧
    (∃ l q, (runCollector opt neverCancel A).1.emitted = l ++ [q] ∧
      q.2.Err.isNone = true) := by
  have hchar := run_characterize opt A hperm
  rcases hrun : runCollector opt neverCancel A with ⟨s', e⟩
  cases e with
  | cancelled => exact (hchar.2.2 s' hrun).elim
  | normal =>
    exfalso
    obtain ⟨hrange, hiff, hlt⟩ := hchar.1 s' hrun
    have hndA : (A.map Prod.fst).Nodup := hperm.symm.nodup (List.nodup_range _)
    have hndAp : A.Nodup := List.Nodup.of_map Prod.fst hndA
    have hndE : s'.emitted.Nodup := by
      have hmnd : (s'.emitted.map Prod.fst).Nodup := by
        rw [hrange]
        exact List.nodup_range _
      exact List.Nodup.of_map Prod.fst hmnd
    have hsub1 : s'.emitted ⊆ A := by
      intro q hq
      obtain ⟨qi, qv⟩ := q
      exact (hiff qi qv).mpr hq
    have hsub2 : A ⊆ s'.emitted := by
      intro q hq
      obtain ⟨qi, qv⟩ := q
      exact (hiff qi qv).mp hq
    have hpermE : s'.emitted.Perm A :=
      List.Subperm.antisymm (hndE.subperm hsub1) (hndAp.subperm hsub2)
    have hfLen : (s'.emitted.filter (fun q => q.2.Err.isNone)).length =
        (A.filter (fun q => q.2.Err.isNone)).length :=
      (hpermE.filter _).length_eq
    have hx := hlt hK
    omega
  | earlyStop =>
    have he := hchar.2.1 s' hrun
    exact ⟨rfl, he.succ_quota, he.emit_range, he.emit_sub, he.last_succ⟩

/-- Counterexample to claim C2 as stated: with EarlyStopN = 1 and one
success available (the premise of the claim), the run emits two results —
the error result at index 0 and then the success at index 1 — not exactly
one; only the successes number one. -/
theorem mapOrdered_early_stop_count_cex :
    wOptStop1.EarlyStopN = 1 ∧
    (1 : Int) ≤ ((cexArrivals.filter (fun q => q.2.Err.isNone)).length : Int) ∧
    (runCollector wOptStop1 neverCancel cexArrivals).1.emitted.length = 2 ∧
    ¬((runCollector wOptStop1 neverCancel cexArrivals).1.emitted.length = 1) := by
  refine ⟨rfl, by simp [cexArrivals], ?_, ?_⟩
  · simp [runCollector, collectLoop, publishLoop, initColl, mapInsert,
      mdelete, mlookup, neverCancel, stopCond, stepSucc, cexArrivals, wOptStop1]
  · simp [runCollector, collectLoop, publishLoop, initColl, mapInsert,
      mdelete, mlookup, neverCancel, stopCond, stepSucc, cexArrivals, wOptStop1]

/-- Witness for the amended claim C2: quota one, success arriving before
the error result that precedes it in index order. -/
theorem mapOrdered_early_stop_quota_witness :
    (runCollector wOptStop1 neverCancel wArrStop).2 = EndKind.earlyStop ∧
    (((runCollector wOptStop1 neverCancel wArrStop).1.emitted.filter
        (fun q => q.2.Err.isNone)).length : Int) = wOptStop1.EarlyStopN ∧
    (runCollector wOptStop1 neverCancel wArrStop).1.emitted.map Prod.fst =
      List.range ((runCollector wOptStop1 neverCancel wArrStop).1.emitted.length) ∧
    (∀ q ∈ (runCollector wOptStop1 neverCancel wArrStop).1.emitted,
      q ∈ wArrStop) ∧
    (∃ l q, (runCollector wOptStop1 neverCancel wArrStop).1.emitted =
      l ++ [q] ∧ q.2.Err.isNone = true) :=
  mapOrdered_early_stop_quota wOptStop1 wArrStop (by decide) (by decide)
    (by decide)

/-- Claim C7.  When the transform returns an ordinary error for some item,
the pipeline is not aborted: in a full uncancelled run with early stop
disabled, the Collector ends normally, every slot is emitted (processing of
the remaining items continues), and slot i of the output carries exactly
the Result with the error populated for that item, in its correct index
position. -/
theorem mapOrdered_error_slot_preserved {R E : Type} (opt : Options)
    (A : List (Nat × CResult R E)) (i : Nat) (r : CResult R E) (err : E)
    (hperm : (A.map Prod.fst).Perm (List.range A.length))
    (hK : opt.EarlyStopN ≤ 0)
    (hmem : (i, r) ∈ A) (herr : r.Err = some err) :
    (runCollector opt neverCancel A).2 = EndKind.normal ∧
    (runCollector opt neverCancel A).1.emitted.length = A.length ∧
    (runCollector opt neverCancel A).1.emitted.get? i = some (i, r) := by
  have hchar := run_characterize opt A hperm
  rcases hrun : runCollector opt neverCancel A with ⟨s', e⟩
  cases e with
  | cancelled => exact (hchar.2.2 s' hrun).elim
  | earlyStop =>
    have he := hchar.2.1 s' hrun
    exact absurd he.quota_pos (by omega)
  | normal =>
    obtain ⟨hrange, hiff, _⟩ := hchar.1 s' hrun
    have hlen : s'.emitted.length = A.length := by
      have hx := congrArg List.length hrange
      simpa using hx
    have hib : i < A.length := by
      have hx : i ∈ A.map Prod.fst := List.mem_map.mpr ⟨(i, r), hmem, rfl⟩
      exact List.mem_range.mp (hperm.mem_iff.mp hx)
    have hg1 : (s'.emitted.map Prod.fst).get? i = some i := by
      rw [hrange]
      exact List.get?_range hib
    rw [List.get?_map] at hg1
    cases hq : s'.emitted.get? i with
    | none =>
      rw [hq] at hg1
      cases hg1
    | some q =>
      rw [hq] at hg1
      have hqi : q.1 = i := by
        simpa using hg1
      have hqmem : q ∈ s'.emitted := List.get?_mem hq
      have hqA : (q.1, q.2) ∈ A := (hiff q.1 q.2).mpr (by
        rw [Prod.mk.eta]
        exact hqmem)
      have hndA : (A.map Prod.fst).Nodup :=
        hperm.symm.nodup (List.nodup_range _)
      have hq2 : q.2 = r := by
        apply nodup_fst_unique hndA _ hmem
        rw [← hqi]
        exact hqA
      refine ⟨rfl, hlen, ?_⟩
      obtain ⟨q1, q2⟩ := q
      have hx1 : q1 = i := hqi
      have hx2 : q2 = r := hq2
      rw [hx1, hx2]

/-- Witness for claim C7: the error result at index 0 arrives second but is
emitted first, in its slot, and the run completes normally. -/
theorem mapOrdered_error_slot_preserved_witness :
    (runCollector wOptPlain neverCancel wArrErr).2 = EndKind.normal ∧
    (runCollector wOptPlain neverCancel wArrErr).1.emitted.length =
      wArrErr.length ∧
    (runCollector wOptPlain neverCancel wArrErr).1.emitted.get? 0 =
      some (0, CResult.mk 1 (some ())) :=
  mapOrdered_error_slot_preserved wOptPlain wArrErr 0
    (CResult.mk 1 (some ())) () (by decide) (by decide) (by decide) rfl
